import Mathlib

/-!
Verification of the graphql-loader repository: a shallow embedding of the
GraphQL document data model and the loader's core functions
(`extractImports` / `loadSource` from `src/loader.ts`, and
`removeDuplicateFragments` / `removeUnusedFragments` from the transforms
module), together with theorems about the claims of the specification.
-/

namespace GraphQLLoader

/-! ## Data model

The GraphQL AST as consumed by the transforms: a `Selection` is a `Field`
(with an optional nested selection set), a `FragmentSpread` (referencing a
fragment by name), or an `InlineFragment` (with a nested selection set).
A `SelectionSet` is the list of its selections. -/

inductive Selection where
  | field (selectionSet : Option (List Selection))
  | fragmentSpread (name : String)
  | inlineFragment (selectionSet : List Selection)

/-- A selection set, as the list of its selections. -/
abbrev SelectionSet := List Selection

/-- A definition of a GraphQL document: an `OperationDefinition` (with a
selection set), a `FragmentDefinition` (with a name and a selection set), or
any other definition kind, which every transform passes through untouched. -/
inductive Definition where
  | operation (selectionSet : SelectionSet)
  | fragment (name : String) (selectionSet : SelectionSet)
  | other

/-- A GraphQL document: an ordered list of definitions.  The transforms touch
no field of the AST node other than `definitions` (the source spreads the
remaining fields unchanged with `...document`). -/
structure DocumentNode where
  definitions : List Definition

/-- The name of a `FragmentDefinition`, `none` on other definition kinds
(`def.kind !== "FragmentDefinition"` in the source). -/
def fragmentName : Definition → Option String
  | .fragment n _ => some n
  | _ => none

/-! ## removeDuplicateFragments (transforms module) -/

/-- The filter of `removeDuplicateFragments`, with the mutable `usedName` set
made an explicit accumulator `seen`: a `FragmentDefinition` whose name has
already been seen is dropped, every other definition is kept and a first-seen
fragment name is added to the set. -/
def removeDuplicateFragmentsAux : List Definition → List String → List Definition
  | [], _ => []
  | d :: ds, seen =>
    match d with
    | .fragment name ss =>
      if name ∈ seen then
        removeDuplicateFragmentsAux ds seen
      else
        Definition.fragment name ss :: removeDuplicateFragmentsAux ds (name :: seen)
    | d => d :: removeDuplicateFragmentsAux ds seen

/-- `removeDuplicateFragments` of the transforms module: filter the
definitions, keeping the first fragment definition of each name. -/
def removeDuplicateFragments (document : DocumentNode) : DocumentNode :=
  { document with definitions := removeDuplicateFragmentsAux document.definitions [] }

/-! ## removeUnusedFragments (transforms module) -/

mutual

/-- The body of `traverse` in `removeUnusedFragments`, on one selection: a
`FragmentSpread` contributes its name; a `Field` or `InlineFragment` with a
selection set is traversed recursively. -/
def spreadsOfSelection : Selection → List String
  | .fragmentSpread n => [n]
  | .field none => []
  | .field (some ss) => spreadsOfSelections ss
  | .inlineFragment ss => spreadsOfSelections ss

/-- `traverse` of `removeUnusedFragments`, collecting every fragment-spread
name of a selection set (the mutable `usedFragments` set is modelled as the
returned list; only membership in it is ever used). -/
def spreadsOfSelections : SelectionSet → List String
  | [] => []
  | s :: rest => spreadsOfSelection s ++ spreadsOfSelections rest

end

/-- The per-definition step of `findFragmentSpreads`: the selection set of an
`OperationDefinition` or `FragmentDefinition` is traversed, other definitions
contribute nothing. -/
def defSpreads : Definition → List String
  | .operation ss => spreadsOfSelections ss
  | .fragment _ ss => spreadsOfSelections ss
  | .other => []

/-- `findFragmentSpreads` of `removeUnusedFragments`: every fragment-spread
name occurring in the selection set of any operation or fragment definition
of the document. -/
def findFragmentSpreads (doc : DocumentNode) : List String :=
  (doc.definitions.map defSpreads).flatten

/-- The filter predicate of `removeUnusedFragments`:
`def.kind !== "FragmentDefinition" || usedFragments.has(def.name.value)`. -/
def keepDef (usedFragments : List String) : Definition → Bool
  | .fragment name _ => usedFragments.contains name
  | _ => true

/-- One pass of `removeUnusedFragments`: collect the used fragment names and
filter out every fragment definition whose name is not among them. -/
def pruneOnce (document : DocumentNode) : DocumentNode :=
  { document with
    definitions := document.definitions.filter (keepDef (findFragmentSpreads document)) }

/-- `removeUnusedFragments` of the transforms module: run one pruning pass; if
it removed any definition, run the function again on the result, until a pass
removes nothing. -/
def removeUnusedFragments (document : DocumentNode) : DocumentNode :=
  if h : document.definitions.length ≠ (pruneOnce document).definitions.length then
    removeUnusedFragments (pruneOnce document)
  else
    pruneOnce document
termination_by document.definitions.length
decreasing_by
  have hle : (pruneOnce document).definitions.length ≤ document.definitions.length :=
    List.length_filter_le _ _
  omega

/-! ## Import scanning (`extractImports`, loader.ts lines 71-103)

The source splits on `/(\r\n|\r|\n)/` — a regex with a capture group, so the
separator strings themselves appear in the resulting array (they are skipped
by the scan since none starts with `#`). -/

/-- `source.split(/(\r\n|\r|\n)/)`: split into lines, keeping the matched
separators as elements of the result (the alternatives are tried in the
order `\r\n`, `\r`, `\n`). -/
def splitLinesAux : List Char → List Char → List String
  | [], acc => [String.mk acc.reverse]
  | '\r' :: '\n' :: rest, acc => String.mk acc.reverse :: "\r\n" :: splitLinesAux rest []
  | '\r' :: rest, acc => String.mk acc.reverse :: "\r" :: splitLinesAux rest []
  | '\n' :: rest, acc => String.mk acc.reverse :: "\n" :: splitLinesAux rest []
  | c :: rest, acc => splitLinesAux rest (c :: acc)

/-- Split a source string as `source.split(/(\r\n|\r|\n)/)` does. -/
def splitLinesKeepSeps (source : String) : List String :=
  splitLinesAux source.data []

/-- JavaScript `s.split(" ")`: split on every single space character, keeping
empty pieces. -/
def splitOnSpaceAux : List Char → List Char → List String
  | [], acc => [String.mk acc.reverse]
  | ' ' :: rest, acc => String.mk acc.reverse :: splitOnSpaceAux rest []
  | c :: rest, acc => splitOnSpaceAux rest (c :: acc)

/-- `line.slice(1).split(" ")`, as a function of the already-sliced string. -/
def splitOnSpace (s : String) : List String :=
  splitOnSpaceAux s.data []

/-- Whether a character is one of the two quote characters accepted by the
path regex: the double quote or the single quote. -/
def isQuoteChar (c : Char) : Bool :=
  c == '\"' || c == '\''

/-- A character matched by the regex dot (no s flag): any character except
the four ECMA-262 line terminators LF, CR, U+2028 and U+2029. -/
def isRegexDotChar (c : Char) : Bool :=
  !(c == '\n' || c == '\r' || c == '\u2028' || c == '\u2029')

/-- The regex match applied to the second token — caret, quote class, greedy
dot-plus capture group, quote class — on the token's characters: the token
must start with a quote character; the dot-plus consumes only dot-matchable
characters, so the match, backtracking from the longest dot run after the
opening quote, ends at the last index of at least 1 among the remaining
characters holding a quote character with only dot-matchable characters
before it (so the capture holds at least one character and no line
terminator).  The closing quote character need not match the opening one.
Returns the captured group, `none` when the regex does not match. -/
def matchQuotedPathChars : List Char → Option String
  | [] => none
  | c :: rest =>
    if isQuoteChar c then
      match ((List.range rest.length).filter
          (fun i => decide (1 ≤ i) && isQuoteChar (rest.getD i ' ') &&
            (rest.take i).all isRegexDotChar)).getLast? with
      | some j => some (String.mk (rest.take j))
      | none => none
    else none

/-- The quoted-path regex match on the second space-split token, as a
function of the token string. -/
def matchQuotedPath (s : String) : Option String :=
  matchQuotedPathChars s.data

/-- The outcome of scanning one element of the line array. -/
inductive LineScan where
  | notImport
  | malformed
  | importPath (path : String)
deriving DecidableEq

/-- The body of the `lines.forEach` of `extractImports`: skip a line whose
first character is not `#` or whose first space-split token after the `#` is
not `import`; otherwise the second space-split token must be a quoted path
(a missing or empty token is falsy in `comment[1] && comment[1].match(...)`,
and a failed regex match yields `null`): both throw the
"#import statement must specify a quoted file path" error, modelled as
`malformed`. -/
def scanLineChars : List Char → LineScan
  | [] => .notImport
  | c :: rest =>
    if c = '#' then
      if (splitOnSpace (String.mk rest)).headD "" = "import" then
        if (splitOnSpace (String.mk rest)).getD 1 "" = "" then .malformed
        else
          match matchQuotedPath ((splitOnSpace (String.mk rest)).getD 1 "") with
          | some p => .importPath p
          | none => .malformed
      else .notImport
    else .notImport

/-- The scan of one line, as a function of the line string (the source binds
`comment = line.slice(1).split(" ")` once; it is written out here). -/
def scanLine (line : String) : LineScan :=
  scanLineChars line.data

/-- Scan the line array in order, collecting the import paths; the first
malformed import line throws (so no path list is produced at all). -/
def scanImports : List String → Except Unit (List String)
  | [] => .ok []
  | l :: ls =>
    match scanLine l with
    | .notImport => scanImports ls
    | .malformed => .error ()
    | .importPath p =>
      match scanImports ls with
      | .error e => .error e
      | .ok ps => .ok (p :: ps)

/-! ## Import expansion (`extractImports` / `loadSource`, loader.ts 65-137)

The asynchronous collaborators (webpack's `loader.resolve`, `loader.fs`
readFile, the GraphQL parser, `path.dirname`) are modelled as an explicit
environment.  `Promise.all` joins its results positionally, so the fan-out
over the import list is modelled as a sequential traversal; a rejection of
any element rejects the whole list (modelled as the leftmost error).  The
recursion of `loadSource` through the import graph has no cycle detection in
the source, so it is modelled with an explicit fuel parameter; running out of
fuel models the unbounded recursion on an import cycle. -/

/-- The errors of the expansion pipeline: a GraphQL parse failure, the
`ImportSyntaxError` of a malformed `#import` line, a module resolution
failure, a file read failure, and exhaustion of the recursion fuel (a
cyclic import). -/
inductive LoadErr where
  | syntaxErr
  | importSyntaxErr
  | resolutionErr
  | readErr
  | outOfFuel
deriving DecidableEq

/-- The external collaborators of the expansion: webpack module resolution,
the file system read, the GraphQL parser, and `path.dirname`. -/
structure FileEnv where
  resolve : String → String → Option String
  read : String → Option String
  parse : String → Option DocumentNode
  dirname : String → String

/-- Resolve every import path (`loader.resolve` wrapped in a promise per
path, joined positionally by `Promise.all`); the first failing resolution
rejects the whole expansion. -/
def resolveAll (env : FileEnv) (resolveContext : String) :
    List String → Except LoadErr (List String)
  | [] => .ok []
  | p :: ps =>
    match env.resolve resolveContext p with
    | none => .error .resolutionErr
    | some f =>
      match resolveAll env resolveContext ps with
      | .error e => .error e
      | .ok fs => .ok (f :: fs)

/-- Read every resolved file, pairing its directory (`dirname(filePath)`)
with its contents, positionally (`Promise.all` over
`files.map(async (filePath) => [dirname(filePath), await readFile(...)])`). -/
def readAll (env : FileEnv) : List String → Except LoadErr (List (String × String))
  | [] => .ok []
  | f :: fs =>
    match env.read f with
    | none => .error .readErr
    | some content =>
      match readAll env fs with
      | .error e => .error e
      | .ok rest => .ok ((env.dirname f, content) :: rest)

/-- Recursively load every imported file (`Promise.all` over
`contents.map(([fileContext, content]) => loadSource(...))`), positionally;
the recursive loader is passed in explicitly so that the recursion of the
mutual group runs through the fuel parameter of `loadSource` alone. -/
def loadAllWith (load : String → String → Except LoadErr DocumentNode) :
    List (String × String) → Except LoadErr (List DocumentNode)
  | [] => .ok []
  | (fileContext, content) :: rest =>
    match load fileContext content with
    | .error e => .error e
    | .ok node =>
      match loadAllWith load rest with
      | .error e => .error e
      | .ok nodes => .ok (node :: nodes)

/-- The body of `extractImports` (loader.ts 65-127), parameterized by the
recursive loader used for the imported files: scan the lines for `#import`
directives, resolve and read each imported file, recursively expand each one,
and append the *entire* definitions list of every expanded import (the
`nodes.reduce` accumulating `...node.definitions`) after the root document's
own definitions. -/
def extractImportsWith (env : FileEnv)
    (load : String → String → Except LoadErr DocumentNode)
    (resolveContext source : String) (document : DocumentNode) :
    Except LoadErr DocumentNode :=
  match scanImports (splitLinesKeepSeps source) with
  | .error _ => .error .importSyntaxErr
  | .ok relPaths =>
    match resolveAll env resolveContext relPaths with
    | .error e => .error e
    | .ok files =>
      match readAll env files with
      | .error e => .error e
      | .ok contents =>
        match loadAllWith load contents with
        | .error e => .error e
        | .ok nodes =>
          .ok { document with
                definitions :=
                  document.definitions ++ (nodes.map (fun n => n.definitions)).flatten }

/-- `loadSource` (loader.ts 129-137): parse the source and expand the
source's imports, with explicit recursion fuel (the source performs no cycle
detection, so an import cycle recurses without bound; `outOfFuel` models
that). -/
def loadSource (env : FileEnv) : Nat → String → String → Except LoadErr DocumentNode
  | 0, _, _ => .error .outOfFuel
  | fuel + 1, resolveContext, source =>
    match env.parse source with
    | none => .error .syntaxErr
    | some document =>
      extractImportsWith env (fun c s => loadSource env fuel c s)
        resolveContext source document

/-- `extractImports` (loader.ts 65-127) at a given recursion fuel for its
nested `loadSource` calls. -/
def extractImports (env : FileEnv) (fuel : Nat)
    (resolveContext source : String) (document : DocumentNode) :
    Except LoadErr DocumentNode :=
  extractImportsWith env (fun c s => loadSource env fuel c s)
    resolveContext source document

/-! ## The loader pipeline (loader.ts 228-269)

The remaining external collaborators (the GraphQL validator and printer,
`JSON.stringify`, and the regex-based `minifyDocumentString`, a stateless
text transform no claim depends on) are modelled as abstract string
functions. -/

/-- External collaborators of the emit stage of the loader. -/
structure LoaderEnv where
  validate : DocumentNode → List String
  print : DocumentNode → String
  stringify : String → String
  minify : String → String

/-- The loader options after `loadOptions`: whether a schema was loaded
(`options.schema` truthy, implying validation), and the
`removeUnusedFragments`, `minify` and `emitDefaultExport` flags. -/
structure LoaderOptions where
  hasSchema : Bool
  removeUnusedFragments : Bool
  minify : Bool
  emitDefaultExport : Bool

/-- The outcome of one run of the loader: the validation errors reported
individually via `emitError`, and the module string passed to `done(null, _)`
(or the error passed to `done(err)`). -/
structure LoaderResult where
  diagnostics : List String
  result : Except LoadErr String

/-- The document transforms applied by the loader between `loadSource` and
validation/emission (loader.ts 244-248). -/
def finalDocument (opts : LoaderOptions) (document : DocumentNode) : DocumentNode :=
  let doc1 := removeDuplicateFragments document
  if opts.removeUnusedFragments then removeUnusedFragments doc1 else doc1

/-- The loader entry point (loader.ts 228-269): load and expand the source,
dedupe fragments, optionally prune unused fragments, validate when a schema
is present (reporting each validation error as a diagnostic, without
aborting), then print, stringify, optionally minify, and emit the module
string. -/
def loader (env : FileEnv) (lenv : LoaderEnv) (opts : LoaderOptions)
    (fuel : Nat) (context source : String) : LoaderResult :=
  match loadSource env fuel context source with
  | .error e => { diagnostics := [], result := .error e }
  | .ok document =>
    let doc := finalDocument opts document
    let validationErrors := if opts.hasSchema then lenv.validate doc else []
    let content := lenv.stringify (lenv.print doc)
    let output := if opts.minify then lenv.minify content else content
    let exp := if opts.emitDefaultExport then "export default " else "module.exports = "
    { diagnostics := validationErrors, result := .ok (exp ++ output) }

/-! ## Basic lemmas about the transforms -/

/-- Two documents with the same definitions list are the same document. -/
lemma DocumentNode.eq_of_definitions {a b : DocumentNode}
    (h : a.definitions = b.definitions) : a = b := by
  cases a; cases b; cases h; rfl

lemma pruneOnce_sublist (doc : DocumentNode) :
    (pruneOnce doc).definitions.Sublist doc.definitions :=
  List.filter_sublist _

/-- The closed-form unfolding of `removeUnusedFragments`. -/
lemma removeUnusedFragments_eq (doc : DocumentNode) :
    removeUnusedFragments doc =
      if doc.definitions.length = (pruneOnce doc).definitions.length then pruneOnce doc
      else removeUnusedFragments (pruneOnce doc) := by
  rw [removeUnusedFragments]
  by_cases h : doc.definitions.length = (pruneOnce doc).definitions.length <;> simp [h]

/-- When a pass removes nothing, the pass was the identity on the document. -/
lemma pruneOnce_eq_self_of_length {doc : DocumentNode}
    (h : doc.definitions.length = (pruneOnce doc).definitions.length) :
    pruneOnce doc = doc :=
  DocumentNode.eq_of_definitions ((pruneOnce_sublist doc).eq_of_length h.symm)

lemma removeUnusedFragments_sublist_aux (k : Nat) :
    ∀ doc : DocumentNode, doc.definitions.length ≤ k →
      (removeUnusedFragments doc).definitions.Sublist doc.definitions := by
  induction k with
  | zero =>
    intro doc hle
    rw [removeUnusedFragments_eq]
    have h1 := pruneOnce_sublist doc
    have h2 := h1.length_le
    have : doc.definitions.length = (pruneOnce doc).definitions.length := by omega
    simp only [this, if_pos]
    exact h1
  | succ k ih =>
    intro doc hle
    rw [removeUnusedFragments_eq]
    split
    · exact pruneOnce_sublist doc
    · have h1 := pruneOnce_sublist doc
      have h2 : (pruneOnce doc).definitions.length < doc.definitions.length :=
        Nat.lt_of_le_of_ne h1.length_le (fun e => by simp [e.symm] at *)
      exact (ih (pruneOnce doc) (by omega)).trans h1

/-- The pruned document's definitions are a subsequence of the originals. -/
lemma removeUnusedFragments_sublist (doc : DocumentNode) :
    (removeUnusedFragments doc).definitions.Sublist doc.definitions :=
  removeUnusedFragments_sublist_aux doc.definitions.length doc le_rfl

/-- The deduplication filter yields a subsequence, for every seen-set. -/
lemma removeDuplicateFragmentsAux_sublist :
    ∀ (defs : List Definition) (seen : List String),
      (removeDuplicateFragmentsAux defs seen).Sublist defs := by
  intro defs
  induction defs with
  | nil => intro seen; simp [removeDuplicateFragmentsAux]
  | cons d ds ih =>
    intro seen
    cases d with
    | fragment name ss =>
      rw [removeDuplicateFragmentsAux]
      split
      · exact (ih seen).cons _
      · exact (ih (name :: seen)).cons₂ _
    | operation ss => exact (ih seen).cons₂ _
    | other => exact (ih seen).cons₂ _

/-- C7 — Order preservation: both `removeDuplicateFragments` and
`removeUnusedFragments` keep the surviving definitions in their original
relative order — each output definitions list is a subsequence of the input
definitions list. -/
theorem c7_order_preservation (d : DocumentNode) :
    (removeDuplicateFragments d).definitions.Sublist d.definitions ∧
    (removeUnusedFragments d).definitions.Sublist d.definitions :=
  ⟨removeDuplicateFragmentsAux_sublist d.definitions [],
   removeUnusedFragments_sublist d⟩

/-- C6 — Monotonic shrink: pruning never increases the number of
definitions: `removeUnusedFragments d` has at most as many definitions as
`d`. -/
theorem c6_prune_monotonic_shrink (d : DocumentNode) :
    (removeUnusedFragments d).definitions.length ≤ d.definitions.length :=
  (removeUnusedFragments_sublist d).length_le

lemma removeUnusedFragments_fixed_aux (k : Nat) :
    ∀ doc : DocumentNode, doc.definitions.length ≤ k →
      pruneOnce (removeUnusedFragments doc) = removeUnusedFragments doc := by
  induction k with
  | zero =>
    intro doc hle
    have h2 := (pruneOnce_sublist doc).length_le
    have h : doc.definitions.length = (pruneOnce doc).definitions.length := by omega
    rw [removeUnusedFragments_eq, if_pos h, pruneOnce_eq_self_of_length h,
      pruneOnce_eq_self_of_length h]
  | succ k ih =>
    intro doc hle
    rw [removeUnusedFragments_eq]
    split
    · next h => rw [pruneOnce_eq_self_of_length h, pruneOnce_eq_self_of_length h]
    · next h =>
      have h2 : (pruneOnce doc).definitions.length < doc.definitions.length :=
        Nat.lt_of_le_of_ne (pruneOnce_sublist doc).length_le (fun e => h e.symm)
      exact ih (pruneOnce doc) (by omega)

/-- The result of `removeUnusedFragments` is a fixed point of one pruning
pass. -/
lemma removeUnusedFragments_fixed (doc : DocumentNode) :
    pruneOnce (removeUnusedFragments doc) = removeUnusedFragments doc :=
  removeUnusedFragments_fixed_aux doc.definitions.length doc le_rfl

/-- C5 — `removeUnusedFragments` is idempotent: its result is the fixed point
at which a pruning pass removes zero definitions, so pruning the result again
returns it unchanged. -/
theorem c5_prune_idempotent (d : DocumentNode) :
    removeUnusedFragments (removeUnusedFragments d) = removeUnusedFragments d := by
  rw [removeUnusedFragments_eq (removeUnusedFragments d),
    removeUnusedFragments_fixed d]
  simp

/-- The recursion of `removeUnusedFragments` with an explicit bound on the
number of passes: `none` when the bound is exhausted before a pass removes
zero definitions. -/
def removeUnusedFragmentsFuel : Nat → DocumentNode → Option DocumentNode
  | 0, _ => none
  | fuel + 1, document =>
    if document.definitions.length ≠ (pruneOnce document).definitions.length then
      removeUnusedFragmentsFuel fuel (pruneOnce document)
    else
      some (pruneOnce document)

lemma removeUnusedFragmentsFuel_ok :
    ∀ (fuel : Nat) (doc : DocumentNode), doc.definitions.length < fuel →
      removeUnusedFragmentsFuel fuel doc = some (removeUnusedFragments doc) := by
  intro fuel
  induction fuel with
  | zero => intro doc h; omega
  | succ fuel ih =>
    intro doc h
    rw [removeUnusedFragmentsFuel, removeUnusedFragments_eq]
    by_cases he : doc.definitions.length = (pruneOnce doc).definitions.length
    · simp [he]
    · have h2 : (pruneOnce doc).definitions.length < doc.definitions.length :=
        Nat.lt_of_le_of_ne (pruneOnce_sublist doc).length_le (fun e => he e.symm)
      simp only [he, if_neg, if_true, ne_eq, not_false_iff]
      exact ih (pruneOnce doc) (by omega)

/-- C8 — Termination: each recursive pass of `removeUnusedFragments` removes
at least one definition, so the recursion depth is bounded by the number of
definitions of the original document: running the recursion with
`d.definitions.length + 1` passes of fuel already reaches the result. -/
theorem c8_prune_terminates (d : DocumentNode) :
    removeUnusedFragmentsFuel (d.definitions.length + 1) d =
      some (removeUnusedFragments d) :=
  removeUnusedFragmentsFuel_ok (d.definitions.length + 1) d (Nat.lt_succ_self _)

/-! ## Reachability and retention under pruning -/

/-- A document has a fragment definition with the given name. -/
def HasFragment (doc : DocumentNode) (n : String) : Prop :=
  ∃ d ∈ doc.definitions, fragmentName d = some n

lemma mem_findFragmentSpreads {doc : DocumentNode} {n : String} :
    n ∈ findFragmentSpreads doc ↔ ∃ d ∈ doc.definitions, n ∈ defSpreads d := by
  simp [findFragmentSpreads, List.mem_flatten]

lemma findFragmentSpreads_subset {docA docB : DocumentNode}
    (h : docA.definitions.Sublist docB.definitions) :
    ∀ n ∈ findFragmentSpreads docA, n ∈ findFragmentSpreads docB := by
  intro n hn
  rw [mem_findFragmentSpreads] at hn ⊢
  obtain ⟨d, hd, hnd⟩ := hn
  exact ⟨d, h.subset hd, hnd⟩

lemma fragmentName_eq_some {d : Definition} {n : String}
    (h : fragmentName d = some n) : ∃ ss, d = Definition.fragment n ss := by
  cases d with
  | fragment m ss =>
    simp only [fragmentName, Option.some_inj] at h
    exact ⟨ss, by rw [h]⟩
  | operation ss => simp [fragmentName] at h
  | other => simp [fragmentName] at h

/-- A definition whose fragment name is among the used fragments survives a
pruning pass. -/
lemma mem_pruneOnce_of_used {doc : DocumentNode} {d : Definition} {n : String}
    (hd : d ∈ doc.definitions) (hname : fragmentName d = some n)
    (hused : n ∈ findFragmentSpreads doc) : d ∈ (pruneOnce doc).definitions := by
  obtain ⟨ss, rfl⟩ := fragmentName_eq_some hname
  refine List.mem_filter.mpr ⟨hd, ?_⟩
  simp only [keepDef]
  exact List.elem_eq_true_of_mem hused

lemma prune_keeps_used_aux (k : Nat) :
    ∀ (doc : DocumentNode) (n : String), doc.definitions.length ≤ k →
      n ∈ findFragmentSpreads (removeUnusedFragments doc) → HasFragment doc n →
      HasFragment (removeUnusedFragments doc) n := by
  induction k with
  | zero =>
    intro doc n hle hmem hfrag
    obtain ⟨d, hd, _⟩ := hfrag
    rw [List.length_eq_zero.mp (Nat.le_zero.mp hle)] at hd
    cases hd
  | succ k ih =>
    intro doc n hle hmem hfrag
    rw [removeUnusedFragments_eq] at hmem ⊢
    by_cases he : doc.definitions.length = (pruneOnce doc).definitions.length
    · rw [if_pos he, pruneOnce_eq_self_of_length he] at hmem ⊢
      exact hfrag
    · rw [if_neg he] at hmem ⊢
      have h2 : (pruneOnce doc).definitions.length < doc.definitions.length :=
        Nat.lt_of_le_of_ne (pruneOnce_sublist doc).length_le (fun e => he e.symm)
      refine ih (pruneOnce doc) n (by omega) hmem ?_
      obtain ⟨d, hd, hname⟩ := hfrag
      have hused : n ∈ findFragmentSpreads doc :=
        findFragmentSpreads_subset (pruneOnce_sublist doc) n
          (findFragmentSpreads_subset (removeUnusedFragments_sublist (pruneOnce doc)) n hmem)
      exact ⟨d, mem_pruneOnce_of_used hd hname hused, hname⟩

/-- A fragment spread of a document reachable from an `OperationDefinition`
through the document's own definitions: a spread occurring directly in an
operation's selection set, or a spread occurring in the selection set of a
fragment definition of the document that is itself reachable. -/
inductive ReachableSpread (doc : DocumentNode) : String → Prop where
  | fromOperation (ss : SelectionSet) (n : String) :
      Definition.operation ss ∈ doc.definitions → n ∈ spreadsOfSelections ss →
      ReachableSpread doc n
  | fromFragment (m : String) (ss : SelectionSet) (n : String) :
      ReachableSpread doc m → Definition.fragment m ss ∈ doc.definitions →
      n ∈ spreadsOfSelections ss → ReachableSpread doc n

lemma reachableSpread_mem_spreads {doc : DocumentNode} {n : String}
    (h : ReachableSpread doc n) : n ∈ findFragmentSpreads doc := by
  induction h with
  | fromOperation ss n hss hn =>
    exact mem_findFragmentSpreads.mpr
      ⟨Definition.operation ss, hss, by simpa [defSpreads] using hn⟩
  | fromFragment m ss n hr hss hn ih =>
    exact mem_findFragmentSpreads.mpr
      ⟨Definition.fragment m ss, hss, by simpa [defSpreads] using hn⟩

/-- C3 — Reachability soundness: in `removeUnusedFragments d`, every fragment
spread reachable from an operation through the retained definitions resolves
to a retained fragment definition, unless the spread was already dangling in
`d` (no fragment of that name existed at all): pruning never removes a
fragment that is still reachable from an operation through retained
definitions. -/
theorem c3_reachability_soundness (d : DocumentNode) (n : String)
    (h : ReachableSpread (removeUnusedFragments d) n) :
    HasFragment (removeUnusedFragments d) n ∨ ¬ HasFragment d n := by
  by_cases hd : HasFragment d n
  · exact Or.inl (prune_keeps_used_aux d.definitions.length d n le_rfl
      (reachableSpread_mem_spreads h) hd)
  · exact Or.inr hd

/-- The document of the C3 witness: an operation spreading fragment `a`,
whose definition in turn contains a dangling spread of a fragment `missing`
that is defined nowhere. -/
def c3Doc : DocumentNode :=
  ⟨[Definition.operation [Selection.fragmentSpread "a"],
    Definition.fragment "a" [Selection.fragmentSpread "missing"]]⟩

lemma c3Doc_fixed : removeUnusedFragments c3Doc = c3Doc := by
  have h : pruneOnce c3Doc = c3Doc := rfl
  rw [removeUnusedFragments_eq, h, if_pos rfl]

theorem c3_reachability_soundness_witness :
    HasFragment (removeUnusedFragments c3Doc) "a" ∨ ¬ HasFragment c3Doc "a" :=
  c3_reachability_soundness c3Doc "a"
    (c3Doc_fixed.symm ▸
      ReachableSpread.fromOperation [Selection.fragmentSpread "a"] "a"
        (List.Mem.head _) (List.Mem.head _))

/-! ## C10: mutually-referencing unused fragments survive pruning -/

/-- A cycle of fragment names: every name of `C` is spread from the selection
set of some definition of the document that is itself a fragment named in
`C`. -/
def CycleHyp (doc : DocumentNode) (C : List String) : Prop :=
  ∀ n ∈ C, ∃ d ∈ doc.definitions,
    (∃ m ∈ C, fragmentName d = some m) ∧ n ∈ defSpreads d

lemma CycleHyp.used {doc : DocumentNode} {C : List String} (h : CycleHyp doc C) :
    ∀ n ∈ C, n ∈ findFragmentSpreads doc := by
  intro n hn
  obtain ⟨d, hd, _, hspread⟩ := h n hn
  exact mem_findFragmentSpreads.mpr ⟨d, hd, hspread⟩

lemma CycleHyp.step {doc : DocumentNode} {C : List String} (h : CycleHyp doc C) :
    (∀ d ∈ doc.definitions, (∃ m ∈ C, fragmentName d = some m) →
        d ∈ (pruneOnce doc).definitions) ∧
      CycleHyp (pruneOnce doc) C := by
  have hkeep : ∀ d ∈ doc.definitions, (∃ m ∈ C, fragmentName d = some m) →
      d ∈ (pruneOnce doc).definitions := by
    rintro d hd ⟨m, hm, hname⟩
    exact mem_pruneOnce_of_used hd hname (h.used m hm)
  refine ⟨hkeep, ?_⟩
  intro n hn
  obtain ⟨d, hd, hmC, hspread⟩ := h n hn
  exact ⟨d, hkeep d hd hmC, hmC, hspread⟩

lemma cycle_retained_aux (k : Nat) :
    ∀ (doc : DocumentNode) (C : List String), doc.definitions.length ≤ k →
      CycleHyp doc C →
      ∀ d ∈ doc.definitions, (∃ m ∈ C, fragmentName d = some m) →
        d ∈ (removeUnusedFragments doc).definitions := by
  induction k with
  | zero =>
    intro doc C hle hcyc d hd hm
    rw [List.length_eq_zero.mp (Nat.le_zero.mp hle)] at hd
    cases hd
  | succ k ih =>
    intro doc C hle hcyc d hd hm
    rw [removeUnusedFragments_eq]
    by_cases he : doc.definitions.length = (pruneOnce doc).definitions.length
    · rw [if_pos he, pruneOnce_eq_self_of_length he]
      exact hd
    · rw [if_neg he]
      have h2 : (pruneOnce doc).definitions.length < doc.definitions.length :=
        Nat.lt_of_le_of_ne (pruneOnce_sublist doc).length_le (fun e => he e.symm)
      exact ih (pruneOnce doc) C (by omega) hcyc.step.2
        d (hcyc.step.1 d hd hm) hm

/-- C10 — Mutually-referencing unused fragments survive pruning: because the
used-fragment set is collected from the selection set of every retained
fragment definition as well as every operation, every fragment definition
whose name belongs to a cycle `C` (each name of `C` is spread from a
fragment definition named in `C`, e.g. fragments that spread one another, or
a fragment that spreads itself) is retained by `removeUnusedFragments`, even
when no operation reaches the cycle. -/
theorem c10_cycle_survives_pruning (doc : DocumentNode) (C : List String)
    (hcyc : CycleHyp doc C) :
    ∀ d ∈ doc.definitions, (∃ m ∈ C, fragmentName d = some m) →
      d ∈ (removeUnusedFragments doc).definitions :=
  cycle_retained_aux doc.definitions.length doc C le_rfl hcyc

/-- The document of the C10 witness: an operation that spreads nothing, and
two fragments `a` and `b` that spread one another while no operation reaches
them. -/
def c10Doc : DocumentNode :=
  ⟨[Definition.operation [],
    Definition.fragment "a" [Selection.fragmentSpread "b"],
    Definition.fragment "b" [Selection.fragmentSpread "a"]]⟩

theorem c10_cycle_survives_pruning_witness :
    Definition.fragment "a" [Selection.fragmentSpread "b"] ∈
      (removeUnusedFragments c10Doc).definitions :=
  c10_cycle_survives_pruning c10Doc ["a", "b"]
    (by
      intro n hn
      rcases List.mem_cons.mp hn with rfl | hn
      · exact ⟨Definition.fragment "b" [Selection.fragmentSpread "a"],
          List.Mem.tail _ (List.Mem.tail _ (List.Mem.head _)),
          ⟨"b", by decide, rfl⟩, by decide⟩
      rcases List.mem_cons.mp hn with rfl | hn
      · exact ⟨Definition.fragment "a" [Selection.fragmentSpread "b"],
          List.Mem.tail _ (List.Mem.head _),
          ⟨"a", by decide, rfl⟩, by decide⟩
      cases hn)
    (Definition.fragment "a" [Selection.fragmentSpread "b"])
    (List.Mem.tail _ (List.Mem.head _))
    ⟨"a", by decide, rfl⟩

/-! ## C2: characterization of removeDuplicateFragments -/

/-- Modelled from the claim's words: the deduplicated definitions list keeps,
in their original relative order, every non-fragment definition and the first
fragment definition of each name, dropping every later fragment definition
whose name was already seen — stated as: keep the head and, when it is a
fragment, drop every later fragment of the same name before deduplicating
the rest. -/
def dedupeSpec : List Definition → List Definition
  | [] => []
  | d :: ds =>
    match fragmentName d with
    | some n => d :: dedupeSpec (ds.filter (fun e => fragmentName e != some n))
    | none => d :: dedupeSpec ds
termination_by l => l.length
decreasing_by
  · simpa using Nat.lt_succ_of_le (List.length_filter_le _ _)
  · simp

/-- A fragment definition's name has not been seen yet (non-fragment
definitions always pass). -/
def notSeenFrag (seen : List String) (e : Definition) : Bool :=
  match fragmentName e with
  | some n => !seen.contains n
  | none => true

lemma dedupeSpec_cons_fragment (name : String) (ss : SelectionSet)
    (ds : List Definition) :
    dedupeSpec (Definition.fragment name ss :: ds) =
      Definition.fragment name ss ::
        dedupeSpec (ds.filter (fun e => fragmentName e != some name)) := by
  rw [dedupeSpec]
  rfl

lemma dedupeSpec_cons_operation (ss : SelectionSet) (ds : List Definition) :
    dedupeSpec (Definition.operation ss :: ds) =
      Definition.operation ss :: dedupeSpec ds := by
  rw [dedupeSpec]
  rfl

lemma dedupeSpec_cons_other (ds : List Definition) :
    dedupeSpec (Definition.other :: ds) = Definition.other :: dedupeSpec ds := by
  rw [dedupeSpec]
  rfl

lemma notSeenFrag_and (name : String) (seen : List String) (e : Definition) :
    ((fragmentName e != some name) && notSeenFrag seen e) =
      notSeenFrag (name :: seen) e := by
  cases e with
  | fragment m ss =>
    simp only [notSeenFrag, fragmentName]
    by_cases h : m = name
    · subst h; simp
    · simp [h, List.contains_cons, bne, Ne.symm h]
  | operation ss => simp [notSeenFrag, fragmentName]
  | other => simp [notSeenFrag, fragmentName]

lemma removeDuplicateFragmentsAux_eq_dedupeSpec :
    ∀ (defs : List Definition) (seen : List String),
      removeDuplicateFragmentsAux defs seen =
        dedupeSpec (defs.filter (notSeenFrag seen)) := by
  intro defs
  induction defs with
  | nil => intro seen; simp [removeDuplicateFragmentsAux, dedupeSpec]
  | cons d ds ih =>
    intro seen
    cases d with
    | fragment name ss =>
      rw [removeDuplicateFragmentsAux]
      by_cases h : name ∈ seen
      · have hp : notSeenFrag seen (Definition.fragment name ss) = false := by
          simp [notSeenFrag, fragmentName, h]
        rw [if_pos h, List.filter_cons_of_neg (by simp [hp]), ih seen]
      · have hp : notSeenFrag seen (Definition.fragment name ss) = true := by
          simp [notSeenFrag, fragmentName, h]
        rw [if_neg h, List.filter_cons_of_pos (by simp [hp]),
          dedupeSpec_cons_fragment, List.filter_filter,
          List.filter_congr (fun e _ => notSeenFrag_and name seen e),
          ih (name :: seen)]
    | operation ss =>
      rw [removeDuplicateFragmentsAux,
        List.filter_cons_of_pos (by simp [notSeenFrag, fragmentName]),
        dedupeSpec_cons_operation, ih seen]
      simp
    | other =>
      rw [removeDuplicateFragmentsAux,
        List.filter_cons_of_pos (by simp [notSeenFrag, fragmentName]),
        dedupeSpec_cons_other, ih seen]
      simp

/-- C2 — `removeDuplicateFragments` keeps, in their original relative order,
exactly every non-fragment definition and the first fragment definition of
each fragment name in definition order, dropping every later fragment
definition whose name was already seen. -/
theorem c2_dedupe_first_occurrence (d : DocumentNode) :
    (removeDuplicateFragments d).definitions = dedupeSpec d.definitions := by
  rw [removeDuplicateFragments]
  have h : d.definitions.filter (notSeenFrag []) = d.definitions :=
    List.filter_eq_self.mpr (fun e _ => by
      cases e <;> simp [notSeenFrag, fragmentName])
  rw [show (DocumentNode.mk (removeDuplicateFragmentsAux d.definitions [])).definitions
      = removeDuplicateFragmentsAux d.definitions [] from rfl,
    removeDuplicateFragmentsAux_eq_dedupeSpec d.definitions [], h]

/-! ## C4: which import lines raise ImportSyntaxError -/

/-- Modelled from the amended claim's words: a token's characters are of the
accepted quoted-path shape when the token starts with a quote character
(single or double) and a quote character — not necessarily the matching
one — occurs again later in the token with at least one character in
between, every character before that later quote being matched by the regex
dot (any character except the line terminators LF, CR, U+2028, U+2029). -/
def specTokenQuotedChars : List Char → Bool
  | [] => false
  | c :: rest =>
    isQuoteChar c &&
      ((List.range rest.length).any
        (fun i => decide (1 ≤ i) && isQuoteChar (rest.getD i ' ') &&
            (rest.take i).all isRegexDotChar))

/-- The quoted-path shape of a token, as a string predicate. -/
def specTokenQuoted (t : String) : Bool :=
  specTokenQuotedChars t.data

/-- Modelled from the amended claim's words: a scanned line piece that starts
with `#`, whose first space-split token after the `#` is exactly `import`,
and whose second space-split token is absent, empty, or not of the
quoted-path shape. -/
def malformedImportLineChars : List Char → Bool
  | [] => false
  | c :: rest =>
    c == '#' && (splitOnSpace (String.mk rest)).headD "" == "import" &&
      !(specTokenQuoted ((splitOnSpace (String.mk rest)).getD 1 ""))

/-- A scanned line piece on which the scan throws `ImportSyntaxError`, per
the amended claim. -/
def malformedImportLine (l : String) : Bool :=
  malformedImportLineChars l.data

lemma matchQuotedPathChars_isSome (cs : List Char) :
    (matchQuotedPathChars cs).isSome = specTokenQuotedChars cs := by
  cases cs with
  | nil => rfl
  | cons c rest =>
    rw [matchQuotedPathChars, specTokenQuotedChars]
    by_cases hq : isQuoteChar c = true
    · rw [if_pos hq, hq, Bool.true_and]
      cases hgl : ((List.range rest.length).filter
          (fun i => decide (1 ≤ i) && isQuoteChar (rest.getD i ' ') &&
            (rest.take i).all isRegexDotChar)).getLast? with
      | some j =>
        have hj2 := List.mem_filter.mp (List.mem_of_mem_getLast? hgl)
        symm
        exact List.any_eq_true.mpr ⟨j, hj2.1, hj2.2⟩
      | none =>
        have hempty := List.getLast?_eq_none_iff.mp hgl
        have hany : ((List.range rest.length).any
            (fun i => decide (1 ≤ i) && isQuoteChar (rest.getD i ' ') &&
            (rest.take i).all isRegexDotChar)) = false := by
          cases hb : ((List.range rest.length).any
              (fun i => decide (1 ≤ i) && isQuoteChar (rest.getD i ' ') &&
            (rest.take i).all isRegexDotChar)) with
          | false => rfl
          | true =>
            obtain ⟨x, hx, hpx⟩ := List.any_eq_true.mp hb
            have hmem : x ∈ ((List.range rest.length).filter
                (fun i => decide (1 ≤ i) && isQuoteChar (rest.getD i ' ') &&
            (rest.take i).all isRegexDotChar)) :=
              List.mem_filter.mpr ⟨hx, hpx⟩
            rw [hempty] at hmem
            cases hmem
        rw [hany]
        rfl
    · have hq2 : isQuoteChar c = false := by
        cases hb : isQuoteChar c
        · rfl
        · exact absurd hb hq
      rw [if_neg hq, hq2, Bool.false_and]
      rfl

lemma matchQuotedPath_isSome (t : String) :
    (matchQuotedPath t).isSome = specTokenQuoted t :=
  matchQuotedPathChars_isSome t.data

lemma scanLineChars_malformed_iff (cs : List Char) :
    scanLineChars cs = LineScan.malformed ↔ malformedImportLineChars cs = true := by
  cases cs with
  | nil =>
    rw [scanLineChars, malformedImportLineChars]
    constructor
    · intro hcontra; exact LineScan.noConfusion hcontra
    · intro hcontra; exact Bool.noConfusion hcontra
  | cons c rest =>
    rw [scanLineChars, malformedImportLineChars]
    simp only [Bool.and_eq_true, beq_iff_eq, Bool.not_eq_true']
    by_cases hc : c = '#'
    · rw [if_pos hc]
      by_cases h1 : (splitOnSpace (String.mk rest)).headD "" = "import"
      · rw [if_pos h1]
        by_cases h2 : (splitOnSpace (String.mk rest)).getD 1 "" = ""
        · rw [if_pos h2, h2]
          constructor
          · intro _; exact ⟨⟨hc, h1⟩, rfl⟩
          · intro _; rfl
        · rw [if_neg h2]
          have hiff := matchQuotedPath_isSome ((splitOnSpace (String.mk rest)).getD 1 "")
          cases hmq : matchQuotedPath ((splitOnSpace (String.mk rest)).getD 1 "") with
          | some p =>
            have hspec : specTokenQuoted ((splitOnSpace (String.mk rest)).getD 1 "") = true := by
              rw [← hiff, hmq]
              rfl
            constructor
            · intro hcontra; exact LineScan.noConfusion hcontra
            · rintro ⟨⟨_, _⟩, hB⟩
              rw [hspec] at hB
              exact Bool.noConfusion hB
          | none =>
            have hspec : specTokenQuoted ((splitOnSpace (String.mk rest)).getD 1 "") = false := by
              rw [← hiff, hmq]
              rfl
            constructor
            · intro _; exact ⟨⟨hc, h1⟩, hspec⟩
            · intro _; rfl
      · rw [if_neg h1]
        constructor
        · intro hcontra; exact LineScan.noConfusion hcontra
        · rintro ⟨⟨_, h1x⟩, _⟩; exact absurd h1x h1
    · rw [if_neg hc]
      constructor
      · intro hcontra; exact LineScan.noConfusion hcontra
      · rintro ⟨⟨hcx, _⟩, _⟩; exact absurd hcx hc

lemma scanLine_malformed_iff (l : String) :
    scanLine l = LineScan.malformed ↔ malformedImportLine l = true :=
  scanLineChars_malformed_iff l.data

lemma scanImports_error_iff :
    ∀ lines : List String,
      scanImports lines = .error () ↔ ∃ l ∈ lines, malformedImportLine l = true := by
  intro lines
  induction lines with
  | nil => simp [scanImports]
  | cons l ls ih =>
    rw [scanImports]
    cases hsc : scanLine l with
    | notImport =>
      have hml : malformedImportLine l = false := by
        cases hb : malformedImportLine l
        · rfl
        · rw [← scanLine_malformed_iff] at hb
          rw [hsc] at hb
          cases hb
      simp [hml, ih]
    | malformed =>
      have hml : malformedImportLine l = true := (scanLine_malformed_iff l).mp hsc
      simp [hml]
    | importPath p =>
      have hml : malformedImportLine l = false := by
        cases hb : malformedImportLine l
        · rfl
        · rw [← scanLine_malformed_iff] at hb
          rw [hsc] at hb
          cases hb
      cases hrec : scanImports ls with
      | error e =>
        cases e
        have hex := ih.mp hrec
        simp [hml, hex]
      | ok ps =>
        have h2 : ¬ ∃ x ∈ ls, malformedImportLine x = true := by
          intro hx
          have := hrec.symm.trans (ih.mpr hx)
          cases this
        simp [hml, h2]

/-- The environment of the C4 counterexample: resolving and reading the file
`a` named by the mismatched-quote import line succeeds, and the imported
file holds one fragment. -/
def c4Env : FileEnv :=
  { resolve := fun _ p => some p
    read := fun f => if f = "a" then some "frag src" else none
    parse := fun s =>
      if s = "#import \"a\'" then some ⟨[]⟩
      else if s = "frag src" then some ⟨[Definition.fragment "x" []]⟩
      else none
    dirname := fun _ => "d" }

/-- C4 counterexample — the claim states that a `#import` line whose path is
not enclosed in *matching* quote characters raises `ImportSyntaxError`; but
on an import line whose path token opens with a double quote and closes
with a single quote, the
scan extracts the path `a` and the whole expansion succeeds without any
error. -/
theorem c4_counterexample :
    scanLine "#import \"a\'" = LineScan.importPath "a" ∧
      extractImports c4Env 1 "." "#import \"a\'" ⟨[]⟩ =
        .ok ⟨[Definition.fragment "x" []]⟩ :=
  ⟨by decide, rfl⟩

/-- C4 (amended) — during import scanning of a source's split line pieces,
expansion raises `ImportSyntaxError` if and only if some piece starts with
`#`, has `import` as the first space-split token after the `#`, and its
second space-split token is absent, empty, or not of the quoted-path shape:
a leading quote character with a later quote character — which need not
match the opening one — at distance at least two, the characters between
the leading quote and that later quote all being matched by the regex dot
(any character except the line terminators LF, CR, U+2028 and U+2029).  (When the scan succeeds,
`extractImports` goes on to resolve the collected paths; when it fails, the
`ImportSyntaxError` is definitionally the error `extractImports` returns.)
In particular the line `#import foo.graphql` (no quotes) makes expansion
fail. -/
theorem c4_import_syntax_error_iff (source : String) :
    scanImports (splitLinesKeepSeps source) = .error () ↔
      ∃ l ∈ splitLinesKeepSeps source, malformedImportLine l = true :=
  scanImports_error_iff (splitLinesKeepSeps source)

/-! ## C1: order of the merged definitions after import expansion -/

lemma loadAllWith_ok (load : String → String → Except LoadErr DocumentNode) :
    ∀ (contents : List (String × String)) (nodes : List DocumentNode),
      contents.length = nodes.length →
      (∀ i, i < contents.length →
        load (contents.getD i ("", "")).1 (contents.getD i ("", "")).2 =
          .ok (nodes.getD i ⟨[]⟩)) →
      loadAllWith load contents = .ok nodes := by
  intro contents
  induction contents with
  | nil =>
    intro nodes hlen hload
    cases nodes with
    | nil => rfl
    | cons n ns => cases hlen
  | cons c cs ih =>
    intro nodes hlen hload
    cases nodes with
    | nil => cases hlen
    | cons n ns =>
      obtain ⟨fileContext, content⟩ := c
      have h0 : load fileContext content = .ok n := hload 0 (Nat.succ_pos _)
      have hrest : loadAllWith load cs = .ok ns :=
        ih ns (by simpa using hlen) (fun i hi => hload (i + 1) (by simpa using hi))
      rw [loadAllWith, h0, hrest]

/-- C1 — Order of the merged document: whenever the scan of the root source
collects the import paths, the paths resolve to files, the files read to
contents, and each imported file's recursive expansion (which already
contains that import's own nested imports) loads, positionally, to a given
document, the expanded document lists the root document's own definitions
first, followed by the *entire* definitions list of each recursively
expanded document, spliced positionally in the order the `#import` lines
appear in the importing file. -/
theorem c1_import_splice_order (env : FileEnv) (fuel : Nat)
    (ctx source : String) (document : DocumentNode)
    (paths files : List String) (contents : List (String × String))
    (nodes : List DocumentNode)
    (hscan : scanImports (splitLinesKeepSeps source) = .ok paths)
    (hres : resolveAll env ctx paths = .ok files)
    (hread : readAll env files = .ok contents)
    (hlen : contents.length = nodes.length)
    (hload : ∀ i, i < contents.length →
      loadSource env fuel (contents.getD i ("", "")).1 (contents.getD i ("", "")).2 =
        .ok (nodes.getD i ⟨[]⟩)) :
    extractImports env fuel ctx source document =
      .ok { document with
            definitions :=
              document.definitions ++ (nodes.map (fun n => n.definitions)).flatten } := by
  have hall : loadAllWith (fun c s => loadSource env fuel c s) contents = .ok nodes :=
    loadAllWith_ok _ contents nodes hlen hload
  simp only [extractImports, extractImportsWith, hscan, hres, hread, hall]

/-- The root source of the C1 witness: two import lines followed by the
operation text. -/
def c1Src : String := "#import \"./a.graphql\"\n#import \"./b.graphql\"\nquery stuff"

/-- The root document of the C1 witness. -/
def c1Root : DocumentNode := ⟨[Definition.operation [Selection.fragmentSpread "a"]]⟩

/-- The first imported document of the C1 witness; it holds an operation as
well as a fragment, showing that the *entire* definitions list is spliced. -/
def c1DocA : DocumentNode := ⟨[Definition.fragment "a" [], Definition.operation []]⟩

/-- The second imported document of the C1 witness. -/
def c1DocB : DocumentNode := ⟨[Definition.fragment "b" []]⟩

/-- The environment of the C1 witness. -/
def c1Env : FileEnv :=
  { resolve := fun _ p => some p
    read := fun f =>
      if f = "./a.graphql" then some "source of a"
      else if f = "./b.graphql" then some "source of b"
      else none
    parse := fun s =>
      if s = c1Src then some c1Root
      else if s = "source of a" then some c1DocA
      else if s = "source of b" then some c1DocB
      else none
    dirname := fun _ => "dir" }

theorem c1_import_splice_order_witness :
    extractImports c1Env 1 "." c1Src c1Root =
      .ok { c1Root with
            definitions :=
              c1Root.definitions ++
                ([c1DocA, c1DocB].map (fun n => n.definitions)).flatten } :=
  c1_import_splice_order c1Env 1 "." c1Src c1Root
    ["./a.graphql", "./b.graphql"] ["./a.graphql", "./b.graphql"]
    [("dir", "source of a"), ("dir", "source of b")] [c1DocA, c1DocB]
    rfl rfl rfl rfl
    (fun i hi => by
      match i, hi with
      | 0, _ => rfl
      | 1, _ => rfl)

/-! ## C9: validation errors are non-fatal -/

/-- C9 — Validation errors are non-fatal: whenever the source loads into a
document, validation is enabled (a schema is present), and the validator
returns a non-empty list of errors for the final transformed document, the
loader reports exactly those errors as diagnostics and still emits the module
output string; the pipeline never aborts solely because validation errors
exist. -/
theorem c9_validation_nonfatal (env : FileEnv) (lenv : LoaderEnv)
    (opts : LoaderOptions) (fuel : Nat) (ctx source : String)
    (document : DocumentNode) (errs : List String)
    (hload : loadSource env fuel ctx source = .ok document)
    (hs : opts.hasSchema = true)
    (hv : lenv.validate (finalDocument opts document) = errs)
    (_hne : errs ≠ []) :
    (loader env lenv opts fuel ctx source).diagnostics = errs ∧
      ∃ s, (loader env lenv opts fuel ctx source).result = .ok s := by
  refine ⟨?_, ?_⟩ <;> simp [loader, hload, hs, hv]

/-- The source of the C9 witness (no imports). -/
def c9Src : String := "query invalid"

/-- The document of the C9 witness. -/
def c9Doc : DocumentNode := ⟨[Definition.operation [Selection.fragmentSpread "f"]]⟩

/-- The file environment of the C9 witness. -/
def c9Env : FileEnv :=
  { resolve := fun _ _ => none
    read := fun _ => none
    parse := fun s => if s = c9Src then some c9Doc else none
    dirname := fun _ => "." }

/-- The loader collaborators of the C9 witness: the validator finds two
errors in every document. -/
def c9LEnv : LoaderEnv :=
  { validate := fun _ => ["unknown field f", "unknown fragment f"]
    print := fun _ => "printed"
    stringify := fun s => s
    minify := fun s => s }

/-- The options of the C9 witness: a schema is present and validation is
enabled. -/
def c9Opts : LoaderOptions :=
  { hasSchema := true
    removeUnusedFragments := false
    minify := false
    emitDefaultExport := false }

theorem c9_validation_nonfatal_witness :
    (loader c9Env c9LEnv c9Opts 1 "." c9Src).diagnostics =
        ["unknown field f", "unknown fragment f"] ∧
      ∃ s, (loader c9Env c9LEnv c9Opts 1 "." c9Src).result = .ok s :=
  c9_validation_nonfatal c9Env c9LEnv c9Opts 1 "." c9Src c9Doc
    ["unknown field f", "unknown fragment f"] rfl rfl rfl (by decide)

end GraphQLLoader
